import Mathlib

/-!
Verification of `check_md_code_blocks.py`: a utility that extracts fenced
Python code blocks from Markdown files and runs an external type checker
(pyright) on each block that mentions one of a fixed set of module names.

The embedding models the two functions of the source file:

* `extract_python_code_blocks` — the line scanner, embedded as a step
  function `step` over an explicit scanner state `ScanState`, folded over
  the file's lines with their 0-based indices (`scanFrom`).
* `check_code_blocks` — the per-block / per-file checking loops, embedded
  with the external `pyright` process abstracted as an oracle
  `String → PyrightResult` (a function of the text fed to its stdin), and
  the subprocess invocations recorded as an explicit trace so that "the
  checker is never invoked" claims are statable.

Python string primitives are modelled on the character-list level:
`str.strip` drops leading and trailing whitespace, `str.startswith` is
list-prefix testing, and the `in` operator is list-infix (substring)
testing.
-/

/-- Model of Python `str.strip()`: remove leading and trailing whitespace
characters. -/
def pyStrip (s : String) : String :=
  ⟨((s.data.dropWhile Char.isWhitespace).reverse.dropWhile Char.isWhitespace).reverse⟩

/-- Model of Python `s.startswith(pat)`: `pat` is a character-sequence
prefix of `s`. -/
def pyStartsWith (s pat : String) : Bool :=
  pat.data.isPrefixOf s.data

/-- Model of Python `needle in haystack` for strings: substring
(character-list infix) containment. -/
def pyIn (needle haystack : String) : Bool :=
  decide (needle.data <:+: haystack.data)

/-- `MODULES_TO_CHECK` from the source: the watched module names. -/
def MODULES_TO_CHECK : List String :=
  ["autogen_agentchat", "autogen_core", "autogen_ext"]

/-- The guard `line.strip().startswith("```python")` from the source:
the line opens a watched-language (Python) fenced block. -/
def opensPython (line : String) : Bool :=
  pyStartsWith (pyStrip line) "```python"

/-- The guard `line.strip().startswith("```")` from the source: the line
is a fence line (in particular a candidate close marker). -/
def isFenceLine (line : String) : Bool :=
  pyStartsWith (pyStrip line) "```"

/-- The mutable state of the loop in `extract_python_code_blocks`:
`in_code_block`, `current_block`, and the `code_blocks` accumulator of
(text, start line) pairs. -/
structure ScanState where
  inCodeBlock : Bool
  currentBlock : List String
  codeBlocks : List (String × Int)
deriving DecidableEq

/-- One iteration of the `for i, line in enumerate(lines)` loop of
`extract_python_code_blocks`, for the line at 0-based index `i`:

* a line whose stripped form starts with the open token plus language tag
  sets the flag and resets the accumulator;
* otherwise a fence line while the flag is set clears the flag and appends
  `("\n".join(current_block), i - len(current_block) + 1)`;
* otherwise, while the flag is set, the line is accumulated verbatim. -/
def step (i : Nat) (line : String) (s : ScanState) : ScanState :=
  if opensPython line then
    { inCodeBlock := true, currentBlock := [], codeBlocks := s.codeBlocks }
  else if isFenceLine line && s.inCodeBlock then
    { inCodeBlock := false, currentBlock := s.currentBlock,
      codeBlocks := s.codeBlocks ++
        [(String.intercalate "\n" s.currentBlock,
          (i : Int) - s.currentBlock.length + 1)] }
  else if s.inCodeBlock then
    { inCodeBlock := true, currentBlock := s.currentBlock ++ [line],
      codeBlocks := s.codeBlocks }
  else
    s

/-- The enumerate loop of `extract_python_code_blocks`, processing the
remaining lines starting at 0-based index `i`. -/
def scanFrom (i : Nat) (s : ScanState) : List String → ScanState
  | [] => s
  | l :: ls => scanFrom (i + 1) (step i l s) ls

/-- `extract_python_code_blocks`, as a function of the file's lines
(the result of `readlines()`): the final `code_blocks` accumulator. -/
def extract_python_code_blocks (lines : List String) : List (String × Int) :=
  (scanFrom 0 { inCodeBlock := false, currentBlock := [], codeBlocks := [] } lines).codeBlocks

/-- Outcome of one `subprocess.run(["pyright", "-"], input=...)` call:
either the process ran and returned an exit code, or the executable could
not be located (`FileNotFoundError`). Captured stdout is omitted — it is
used only for logging. -/
inductive PyrightResult where
  | exit (returncode : Int)
  | notFound
deriving DecidableEq

/-- The relevance filter `all(module not in code_block for module in
MODULES_TO_CHECK)` of `check_code_blocks`. -/
def allModulesAbsent (code_block : String) : Bool :=
  MODULES_TO_CHECK.all fun m => !pyIn m code_block

/-- The `for code_block, line_no in code_blocks` loop of
`check_code_blocks` for one file, threading the `had_errors` flag.
Returns the trace of block texts fed to the external checker, paired with
`none` if `FileNotFoundError` aborted the run (the `raise RuntimeError`
in the `except` clause) or `some had_errors` otherwise. -/
def checkBlocksLoop (pyright : String → PyrightResult) :
    List (String × Int) → Bool → List String × Option Bool
  | [], had_errors => ([], some had_errors)
  | (code_block, _) :: rest, had_errors =>
    if allModulesAbsent code_block then
      checkBlocksLoop pyright rest had_errors
    else
      match pyright code_block with
      | PyrightResult.notFound => ([code_block], none)
      | PyrightResult.exit returncode =>
        let r := checkBlocksLoop pyright rest (had_errors || (returncode != 0))
        (code_block :: r.1, r.2)

/-- The `for markdown_file_path in markdown_file_paths` loop of
`check_code_blocks`, threading the `files_with_errors` accumulator.
`files` maps a path to that file's lines. Returns the invocation trace
paired with `none` on the fatal abort or `some files_with_errors`. -/
def filesLoop (pyright : String → PyrightResult) (files : String → List String) :
    List String → List String → List String × Option (List String)
  | [], files_with_errors => ([], some files_with_errors)
  | p :: rest, files_with_errors =>
    let r := checkBlocksLoop pyright (extract_python_code_blocks (files p)) false
    match r.2 with
    | none => (r.1, none)
    | some had_errors =>
      let r2 := filesLoop pyright files rest
        (if had_errors then files_with_errors ++ [p] else files_with_errors)
      (r.1 ++ r2.1, r2.2)

/-- Final outcome of `check_code_blocks`: normal return, the
`RuntimeError` raised when pyright is missing, or the aggregate
`RuntimeError` raised when `files_with_errors` is non-empty. -/
inductive RunOutcome where
  | success
  | pyrightMissing (message : String)
  | syntaxErrors (message : String)
deriving DecidableEq

/-- `check_code_blocks`: run the file loop and translate the result into
the function's observable outcome, with the exact message strings of the
source. -/
def check_code_blocks (pyright : String → PyrightResult)
    (files : String → List String) (markdown_file_paths : List String) : RunOutcome :=
  match (filesLoop pyright files markdown_file_paths []).2 with
  | none => RunOutcome.pyrightMissing "Pyright missing; install it to proceed."
  | some files_with_errors =>
    if files_with_errors.isEmpty then RunOutcome.success
    else RunOutcome.syntaxErrors
      ("Syntax errors found in the following files:\n" ++
        String.intercalate "\n" files_with_errors)

/-- Specification-side predicate: this block, if checked, fails — it
passes the relevance filter and the checker exits non-zero on its text. -/
def blockFails (pyright : String → PyrightResult) (code_block : String) : Bool :=
  !allModulesAbsent code_block &&
    match pyright code_block with
    | PyrightResult.exit returncode => returncode != 0
    | PyrightResult.notFound => false

/-- Specification-side predicate: the file at path `p` contains at least
one failing block. -/
def fileFails (pyright : String → PyrightResult) (files : String → List String)
    (p : String) : Bool :=
  (extract_python_code_blocks (files p)).any fun b => blockFails pyright b.1

/-- Concrete oracle for witnesses: the checker always runs and fails. -/
def pyrightAllFail : String → PyrightResult := fun _ => PyrightResult.exit 1

/-- Concrete oracle for witnesses: the checker executable is missing. -/
def pyrightAbsent : String → PyrightResult := fun _ => PyrightResult.notFound

/-- Concrete file table for witnesses: every path holds one watched-module
Python block. -/
def demoFiles : String → List String :=
  fun _ => ["```python", "import autogen_core", "```"]

/-- Invariant of the scan at line index `i`: the recorded start lines are
strictly increasing, and every recorded start line is below the least
start line any future emission can produce (`i - current length + 1`
while inside a block, `i + 2` while outside). -/
def ScanInv (i : Nat) (s : ScanState) : Prop :=
  List.Pairwise (· < ·) (s.codeBlocks.map Prod.snd) ∧
  (s.inCodeBlock = true →
    ∀ st ∈ s.codeBlocks.map Prod.snd, st < (i : Int) - s.currentBlock.length + 1) ∧
  (s.inCodeBlock = false →
    ∀ st ∈ s.codeBlocks.map Prod.snd, st < (i : Int) + 2)

example : extract_python_code_blocks (demoFiles "a.md") = [("import autogen_core", 2)] := by decide

example : extract_python_code_blocks ["```python", "a", "```python", "b", "```"] = [("b", 4)] := by decide

/-- A line opening a watched-language block is in particular a fence
line: the open token plus language tag extends the bare fence token. -/
theorem fence_of_python {l : String} (h : opensPython l = true) : isFenceLine l = true := by
  have h2 : "```python".data <+: (pyStrip l).data :=
    List.isPrefixOf_iff_prefix.mp h
  have h3 : "```".data <+: "```python".data := ⟨"python".data, rfl⟩
  exact List.isPrefixOf_iff_prefix.mpr (h3.trans h2)

/-- Contrapositive of `fence_of_python`. -/
theorem not_fence_not_open {l : String} (h : isFenceLine l = false) : opensPython l = false := by
  cases hop : opensPython l with
  | false => rfl
  | true => rw [fence_of_python hop] at h; exact absurd h (by simp)

theorem step_open {i : Nat} {l : String} {s : ScanState} (h : opensPython l = true) :
    step i l s = { inCodeBlock := true, currentBlock := [], codeBlocks := s.codeBlocks } := by
  simp [step, h]

theorem step_close {i : Nat} {l : String} {s : ScanState}
    (hf : isFenceLine l = true) (ho : opensPython l = false) (hs : s.inCodeBlock = true) :
    step i l s =
      { inCodeBlock := false, currentBlock := s.currentBlock,
        codeBlocks := s.codeBlocks ++
          [(String.intercalate "\n" s.currentBlock,
            (i : Int) - s.currentBlock.length + 1)] } := by
  simp [step, ho, hf, hs]

theorem step_accum {i : Nat} {l : String} {s : ScanState}
    (hf : isFenceLine l = false) (hs : s.inCodeBlock = true) :
    step i l s =
      { inCodeBlock := true, currentBlock := s.currentBlock ++ [l],
        codeBlocks := s.codeBlocks } := by
  simp [step, not_fence_not_open hf, hf, hs]

theorem step_outside {i : Nat} {l : String} {s : ScanState}
    (ho : opensPython l = false) (hs : s.inCodeBlock = false) :
    step i l s = s := by
  simp [step, ho, hs]

/-- While the flag is set, lines that are not fence lines are simply
appended, in order, to the accumulator. -/
theorem scanFrom_accum (content : List String)
    (hc : ∀ l ∈ content, isFenceLine l = false) :
    ∀ (i : Nat) (s : ScanState) (rest : List String), s.inCodeBlock = true →
      scanFrom i s (content ++ rest) =
        scanFrom (i + content.length)
          { inCodeBlock := true, currentBlock := s.currentBlock ++ content,
            codeBlocks := s.codeBlocks } rest := by
  induction content with
  | nil =>
    intro i s rest hs
    obtain ⟨inb, cur, cbs⟩ := s
    simp at hs
    subst hs
    simp
  | cons c cs ih =>
    intro i s rest hs
    have hc0 : isFenceLine c = false := hc c (by simp)
    have hcs : ∀ l ∈ cs, isFenceLine l = false := fun l hl => hc l (List.mem_cons_of_mem c hl)
    have hstep := step_accum (i := i) (s := s) hc0 hs
    simp only [List.cons_append, scanFrom, hstep, List.append_eq]
    rw [ih hcs (i + 1)
      { inCodeBlock := true, currentBlock := s.currentBlock ++ [c], codeBlocks := s.codeBlocks }
      rest rfl]
    have hidx : i + 1 + cs.length = i + (c :: cs).length := by simp; omega
    rw [hidx]
    simp

/-- While the flag is clear, lines that do not open a watched-language
block leave the scanner state untouched. -/
theorem scanFrom_skip (ls : List String)
    (h : ∀ l ∈ ls, opensPython l = false) :
    ∀ (i : Nat) (s : ScanState) (rest : List String), s.inCodeBlock = false →
      scanFrom i s (ls ++ rest) = scanFrom (i + ls.length) s rest := by
  induction ls with
  | nil => intro i s rest _; simp
  | cons c cs ih =>
    intro i s rest hs
    have h0 : opensPython c = false := h c (by simp)
    have hcs : ∀ l ∈ cs, opensPython l = false := fun l hl => h l (List.mem_cons_of_mem c hl)
    simp only [List.cons_append, scanFrom, step_outside h0 hs, List.append_eq]
    rw [ih hcs (i + 1) s rest hs]
    have hidx : i + 1 + cs.length = i + (c :: cs).length := by simp; omega
    rw [hidx]

/-- While the flag is set, a run of lines in which every fence line is a
watched-language open line (i.e. no genuine close line occurs) keeps the
flag set and emits no block. -/
theorem scanFrom_no_close (ls : List String)
    (h : ∀ l ∈ ls, isFenceLine l = true → opensPython l = true) :
    ∀ (i : Nat) (s : ScanState), s.inCodeBlock = true →
      (scanFrom i s ls).inCodeBlock = true ∧ (scanFrom i s ls).codeBlocks = s.codeBlocks := by
  induction ls with
  | nil => intro i s hs; exact ⟨hs, rfl⟩
  | cons c cs ih =>
    intro i s hs
    have hcs : ∀ l ∈ cs, isFenceLine l = true → opensPython l = true :=
      fun l hl => h l (List.mem_cons_of_mem c hl)
    cases hop : opensPython c with
    | true =>
      simp only [scanFrom, step_open hop]
      exact ih hcs (i + 1) _ rfl
    | false =>
      have hfc : isFenceLine c = false := by
        cases hfc : isFenceLine c with
        | false => rfl
        | true => rw [h c (by simp) hfc] at hop; exact absurd hop (by simp)
      simp only [scanFrom, step_accum hfc hs]
      exact ih hcs (i + 1) _ rfl

/-- Processing a well-formed watched-language block (open marker at index
`i`, content lines free of fence lines, then a genuine close line)
appends exactly one entry: the content joined by newlines, with recorded
start line `i + 2` (the 0-based index of the open marker plus 2, i.e. the
1-based number of the first content line). -/
theorem scanFrom_block (opn : String) (content : List String) (cls : String)
    (ho : opensPython opn = true) (hc : ∀ l ∈ content, isFenceLine l = false)
    (hcl1 : isFenceLine cls = true) (hcl2 : opensPython cls = false) :
    ∀ (i : Nat) (s : ScanState) (rest : List String),
      scanFrom i s (opn :: (content ++ cls :: rest)) =
        scanFrom (i + content.length + 2)
          { inCodeBlock := false, currentBlock := content,
            codeBlocks := s.codeBlocks ++
              [(String.intercalate "\n" content, (i : Int) + 2)] } rest := by
  intro i s rest
  simp only [scanFrom, step_open ho]
  rw [scanFrom_accum content hc (i + 1)
    { inCodeBlock := true, currentBlock := [], codeBlocks := s.codeBlocks }
    (cls :: rest) rfl]
  simp only [scanFrom, List.nil_append]
  rw [step_close (i := i + 1 + content.length) hcl1 hcl2 rfl]
  have hidx : i + 1 + content.length + 1 = i + content.length + 2 := by omega
  have hval : ((i + 1 + content.length : Nat) : Int) - (content.length : Int) + 1 =
      (i : Int) + 2 := by push_cast; ring
  simp only [hval, hidx]

/-- When no block of the list makes the checker executable go missing,
the per-file loop completes and its `had_errors` result is the initial
flag or-ed with "some block fails". -/
theorem checkBlocksLoop_snd (pyright : String → PyrightResult) :
    ∀ (blocks : List (String × Int)),
      (∀ b ∈ blocks, allModulesAbsent b.1 = false → pyright b.1 ≠ PyrightResult.notFound) →
      ∀ (had : Bool),
        (checkBlocksLoop pyright blocks had).2 =
          some (had || blocks.any fun b => blockFails pyright b.1) := by
  intro blocks
  induction blocks with
  | nil => intro _ had; simp [checkBlocksLoop]
  | cons b rest ih =>
    intro h had
    obtain ⟨code, n⟩ := b
    have hrest : ∀ x ∈ rest, allModulesAbsent x.1 = false → pyright x.1 ≠ PyrightResult.notFound :=
      fun x hx => h x (List.mem_cons_of_mem _ hx)
    cases hig : allModulesAbsent code with
    | true =>
      simp only [checkBlocksLoop, hig, if_true]
      rw [ih hrest had]
      simp [blockFails, hig]
    | false =>
      cases hpr : pyright code with
      | notFound => exact absurd hpr (h (code, n) (by simp) hig)
      | exit rc =>
        simp only [checkBlocksLoop, hig, Bool.false_eq_true, if_false, hpr]
        rw [ih hrest (had || (rc != 0))]
        simp [blockFails, hig, hpr, Bool.or_assoc]

/-- When no block of any listed file makes the checker executable go
missing, the file loop completes and its `files_with_errors` result is
the accumulator extended with exactly the failing files, in order. -/
theorem filesLoop_snd (pyright : String → PyrightResult) (files : String → List String) :
    ∀ (paths : List String),
      (∀ q ∈ paths, ∀ b ∈ extract_python_code_blocks (files q),
        allModulesAbsent b.1 = false → pyright b.1 ≠ PyrightResult.notFound) →
      ∀ (acc : List String),
        (filesLoop pyright files paths acc).2 =
          some (acc ++ paths.filter (fileFails pyright files)) := by
  intro paths
  induction paths with
  | nil => intro _ acc; simp [filesLoop]
  | cons p rest ih =>
    intro h acc
    have hrest : ∀ q ∈ rest, ∀ b ∈ extract_python_code_blocks (files q),
        allModulesAbsent b.1 = false → pyright b.1 ≠ PyrightResult.notFound :=
      fun q hq => h q (List.mem_cons_of_mem _ hq)
    have hr : (checkBlocksLoop pyright (extract_python_code_blocks (files p)) false).2 =
        some (fileFails pyright files p) := by
      rw [checkBlocksLoop_snd pyright (extract_python_code_blocks (files p)) (h p (by simp)) false]
      simp [fileFails]
    simp only [filesLoop, hr]
    rw [ih hrest (if fileFails pyright files p then acc ++ [p] else acc)]
    cases hf : fileFails pyright files p with
    | true => simp [List.filter_cons, hf]
    | false => simp [List.filter_cons, hf]

/-- If the scan of one file reaches a relevant block on whose text the
checker executable is missing, the remaining blocks of that file are
irrelevant to the loop's result (and its invocation trace): the loop
behaves exactly as if they were absent. -/
theorem checkBlocksLoop_stops (pyright : String → PyrightResult) (code : String) (n : Int)
    (hrel : allModulesAbsent code = false) (hnf : pyright code = PyrightResult.notFound) :
    ∀ (bpre : List (String × Int)),
      (∀ b ∈ bpre, allModulesAbsent b.1 = false → pyright b.1 ≠ PyrightResult.notFound) →
      ∀ (rest : List (String × Int)) (had : Bool),
        checkBlocksLoop pyright (bpre ++ (code, n) :: rest) had =
          checkBlocksLoop pyright (bpre ++ [(code, n)]) had := by
  intro bpre
  induction bpre with
  | nil => intro _ rest had; simp [checkBlocksLoop, hrel, hnf]
  | cons b bpre2 ih =>
    intro h rest had
    obtain ⟨code2, n2⟩ := b
    have hb2 : ∀ x ∈ bpre2, allModulesAbsent x.1 = false → pyright x.1 ≠ PyrightResult.notFound :=
      fun x hx => h x (List.mem_cons_of_mem _ hx)
    cases hig : allModulesAbsent code2 with
    | true =>
      simp only [List.cons_append, checkBlocksLoop, hig, if_true]
      exact ih hb2 rest had
    | false =>
      cases hpr : pyright code2 with
      | notFound => exact absurd hpr (h (code2, n2) (by simp) hig)
      | exit rc =>
        simp only [List.cons_append, checkBlocksLoop, hig, Bool.false_eq_true, if_false, hpr, List.append_eq]
        rw [ih hb2 rest (had || (rc != 0))]

/-- Under the same conditions, the per-file loop reports the fatal
missing-executable outcome (`none`). -/
theorem checkBlocksLoop_none (pyright : String → PyrightResult) (code : String) (n : Int)
    (hrel : allModulesAbsent code = false) (hnf : pyright code = PyrightResult.notFound) :
    ∀ (bpre : List (String × Int)),
      (∀ b ∈ bpre, allModulesAbsent b.1 = false → pyright b.1 ≠ PyrightResult.notFound) →
      ∀ (had : Bool),
        (checkBlocksLoop pyright (bpre ++ [(code, n)]) had).2 = none := by
  intro bpre
  induction bpre with
  | nil => intro _ had; simp [checkBlocksLoop, hrel, hnf]
  | cons b bpre2 ih =>
    intro h had
    obtain ⟨code2, n2⟩ := b
    have hb2 : ∀ x ∈ bpre2, allModulesAbsent x.1 = false → pyright x.1 ≠ PyrightResult.notFound :=
      fun x hx => h x (List.mem_cons_of_mem _ hx)
    cases hig : allModulesAbsent code2 with
    | true =>
      simp only [List.cons_append, checkBlocksLoop, hig, if_true]
      exact ih hb2 had
    | false =>
      cases hpr : pyright code2 with
      | notFound => exact absurd hpr (h (code2, n2) (by simp) hig)
      | exit rc =>
        simp only [List.cons_append, checkBlocksLoop, hig, Bool.false_eq_true, if_false, hpr, List.append_eq]
        exact ih hb2 (had || (rc != 0))

/-- If processing file `p` hits the missing-executable abort, the file
loop's behaviour (result and invocation trace) does not depend on the
files listed after `p`, and it reports the fatal outcome. -/
theorem filesLoop_stops (pyright : String → PyrightResult) (files : String → List String)
    (p : String)
    (hsnd : (checkBlocksLoop pyright (extract_python_code_blocks (files p)) false).2 = none) :
    ∀ (pre : List String),
      (∀ q ∈ pre, ∀ b ∈ extract_python_code_blocks (files q),
        allModulesAbsent b.1 = false → pyright b.1 ≠ PyrightResult.notFound) →
      ∀ (post acc : List String),
        filesLoop pyright files (pre ++ p :: post) acc =
          filesLoop pyright files (pre ++ [p]) acc ∧
        (filesLoop pyright files (pre ++ p :: post) acc).2 = none := by
  intro pre
  induction pre with
  | nil =>
    intro _ post acc
    constructor
    · simp only [List.nil_append, filesLoop, hsnd]
    · simp only [List.nil_append, filesLoop, hsnd]
  | cons q pre2 ih =>
    intro h post acc
    have hpre2 : ∀ x ∈ pre2, ∀ b ∈ extract_python_code_blocks (files x),
        allModulesAbsent b.1 = false → pyright b.1 ≠ PyrightResult.notFound :=
      fun x hx => h x (List.mem_cons_of_mem _ hx)
    have hr : (checkBlocksLoop pyright (extract_python_code_blocks (files q)) false).2 =
        some (fileFails pyright files q) := by
      rw [checkBlocksLoop_snd pyright (extract_python_code_blocks (files q)) (h q (by simp)) false]
      simp [fileFails]
    have hih := ih hpre2 post
      (if fileFails pyright files q then acc ++ [q] else acc)
    constructor
    · simp only [List.cons_append, filesLoop, hr, List.append_eq]
      rw [hih.1]
    · simp only [List.cons_append, filesLoop, hr, List.append_eq]
      exact hih.2

/-- Each scan step preserves the ordering invariant. -/
theorem step_inv (i : Nat) (l : String) (s : ScanState) (h : ScanInv i s) :
    ScanInv (i + 1) (step i l s) := by
  obtain ⟨hp, hbt, hbf⟩ := h
  have hub : ∀ st ∈ s.codeBlocks.map Prod.snd, st < (i : Int) + 2 := by
    intro st hst
    cases hsb : s.inCodeBlock with
    | true =>
      have := hbt hsb st hst
      omega
    | false => exact hbf hsb st hst
  by_cases h1 : opensPython l = true
  · rw [step_open h1]
    refine ⟨hp, fun _ st hst => ?_, fun hco => by simp at hco⟩
    have := hub st hst
    simp only [List.length_nil]
    omega
  · have h1f : opensPython l = false := by simpa using h1
    by_cases hsb : s.inCodeBlock = true
    · by_cases hf : isFenceLine l = true
      · rw [step_close hf h1f hsb]
        refine ⟨?_, fun hco => by simp at hco, fun _ st hst => ?_⟩
        · simp only [List.map_append, List.map_cons, List.map_nil]
          rw [List.pairwise_append]
          refine ⟨hp, List.pairwise_singleton _ _, ?_⟩
          intro a ha b hbmem
          rw [List.mem_singleton] at hbmem
          subst hbmem
          exact hbt hsb a ha
        · simp only [List.map_append, List.map_cons, List.map_nil, List.mem_append,
            List.mem_singleton] at hst
          rcases hst with hst | hst
          · have := hbt hsb st hst
            omega
          · subst hst
            omega
      · have hff : isFenceLine l = false := by simpa using hf
        rw [step_accum hff hsb]
        refine ⟨hp, fun _ st hst => ?_, fun hco => by simp at hco⟩
        have := hbt hsb st hst
        simp only [List.length_append, List.length_cons, List.length_nil]
        omega
    · have hsf : s.inCodeBlock = false := by simpa using hsb
      rw [step_outside h1f hsf]
      refine ⟨hp, fun hco => ?_, fun _ st hst => ?_⟩
      · rw [hco] at hsf; exact absurd hsf (by simp)
      · have := hbf hsf st hst
        omega

/-- The scan maintains strictly increasing recorded start lines. -/
theorem scanFrom_pairwise (ls : List String) :
    ∀ (i : Nat) (s : ScanState), ScanInv i s →
      List.Pairwise (· < ·) (((scanFrom i s ls).codeBlocks).map Prod.snd) := by
  induction ls with
  | nil => intro i s h; exact h.1
  | cons l ls2 ih =>
    intro i s h
    simp only [scanFrom]
    exact ih (i + 1) (step i l s) (step_inv i l s h)

/-- C1: over a non-empty list of file paths, with the external checker
always found, the run raises the aggregate error exactly when at least
one file contains a checked block with non-zero exit status; the error
message lists every failing file path, one per line, after the fixed
header, and an empty failure set completes with no error. -/
theorem claim_C1 (pyright : String → PyrightResult) (files : String → List String)
    (paths : List String) (hne : paths ≠ [])
    (hfound : ∀ c, pyright c ≠ PyrightResult.notFound) :
    (check_code_blocks pyright files paths =
        RunOutcome.syntaxErrors ("Syntax errors found in the following files:\n" ++
          String.intercalate "\n" (paths.filter (fileFails pyright files)))
      ↔ ∃ p ∈ paths, fileFails pyright files p = true)
    ∧ (paths.filter (fileFails pyright files) = [] →
        check_code_blocks pyright files paths = RunOutcome.success) := by
  have hclean : ∀ q ∈ paths, ∀ b ∈ extract_python_code_blocks (files q),
      allModulesAbsent b.1 = false → pyright b.1 ≠ PyrightResult.notFound :=
    fun q _ b _ _ => hfound b.1
  have hsnd := filesLoop_snd pyright files paths hclean []
  rw [List.nil_append] at hsnd
  have hout : check_code_blocks pyright files paths =
      (if (paths.filter (fileFails pyright files)).isEmpty then RunOutcome.success
       else RunOutcome.syntaxErrors ("Syntax errors found in the following files:\n" ++
         String.intercalate "\n" (paths.filter (fileFails pyright files)))) := by
    simp only [check_code_blocks, hsnd]
  by_cases hf : paths.filter (fileFails pyright files) = []
  · rw [hf] at hout
    simp only [List.isEmpty_nil, if_true] at hout
    constructor
    · constructor
      · intro hcontra
        rw [hout] at hcontra
        exact absurd hcontra (by simp)
      · rintro ⟨p, hp, hfail⟩
        have : p ∈ paths.filter (fileFails pyright files) := List.mem_filter.mpr ⟨hp, hfail⟩
        rw [hf] at this
        exact absurd this (by simp)
    · intro _; exact hout
  · have hie : (paths.filter (fileFails pyright files)).isEmpty = false := by
      cases he : List.isEmpty (paths.filter (fileFails pyright files)) with
      | false => rfl
      | true => exact absurd (List.isEmpty_iff.mp he) hf
    rw [hie] at hout
    simp only [Bool.false_eq_true, if_false] at hout
    constructor
    · constructor
      · intro _
        obtain ⟨x, hx⟩ := List.exists_mem_of_ne_nil _ hf
        have hx2 := List.mem_filter.mp hx
        exact ⟨x, hx2.1, hx2.2⟩
      · intro _; exact hout
    · intro hcontra; exact absurd hcontra hf

theorem claim_C1_witness :
    (["a.md"] : List String) ≠ [] ∧
    check_code_blocks pyrightAllFail demoFiles ["a.md"] =
      RunOutcome.syntaxErrors ("Syntax errors found in the following files:\n" ++
        String.intercalate "\n" (List.filter (fileFails pyrightAllFail demoFiles) ["a.md"])) := by
  refine ⟨by simp, ?_⟩
  exact ((claim_C1 pyrightAllFail demoFiles ["a.md"] (by simp)
    (fun c => by simp [pyrightAllFail])).1).mpr ⟨"a.md", by simp, by decide⟩

/-- C2: if, for some relevant block, the checker executable is missing,
the whole run ends in the distinct fatal outcome; the run's full result
(invocation trace included) coincides with the run in which the remaining
blocks of the current file and all subsequent files are absent, so none
of them is processed. -/
theorem claim_C2 (pyright : String → PyrightResult) (files : String → List String)
    (pre post : List String) (p : String) (bpre bpost : List (String × Int))
    (code : String) (n : Int)
    (hpre : ∀ q ∈ pre, ∀ b ∈ extract_python_code_blocks (files q),
      allModulesAbsent b.1 = false → pyright b.1 ≠ PyrightResult.notFound)
    (hblocks : extract_python_code_blocks (files p) = bpre ++ (code, n) :: bpost)
    (hbpre : ∀ b ∈ bpre, allModulesAbsent b.1 = false → pyright b.1 ≠ PyrightResult.notFound)
    (hrel : allModulesAbsent code = false)
    (hnf : pyright code = PyrightResult.notFound) :
    check_code_blocks pyright files (pre ++ p :: post) =
      RunOutcome.pyrightMissing "Pyright missing; install it to proceed." ∧
    filesLoop pyright files (pre ++ p :: post) [] =
      filesLoop pyright files (pre ++ [p]) [] ∧
    checkBlocksLoop pyright (bpre ++ (code, n) :: bpost) false =
      checkBlocksLoop pyright (bpre ++ [(code, n)]) false := by
  have hstop := checkBlocksLoop_stops pyright code n hrel hnf bpre hbpre bpost false
  have hnone := checkBlocksLoop_none pyright code n hrel hnf bpre hbpre false
  have hsnd : (checkBlocksLoop pyright (extract_python_code_blocks (files p)) false).2 = none := by
    rw [hblocks, hstop]
    exact hnone
  have hfl := filesLoop_stops pyright files p hsnd pre hpre post []
  refine ⟨?_, hfl.1, hstop⟩
  simp only [check_code_blocks, hfl.2]

theorem claim_C2_witness :
    allModulesAbsent "import autogen_core" = false ∧
    check_code_blocks pyrightAbsent demoFiles ["a.md"] =
      RunOutcome.pyrightMissing "Pyright missing; install it to proceed." := by
  refine ⟨by decide, ?_⟩
  exact (claim_C2 pyrightAbsent demoFiles [] [] "a.md" [] [] "import autogen_core" 2
    (by simp) (by decide) (by simp) (by decide) rfl).1

/-- C3 (amended): once a watched-language block is open, the first
subsequent line whose stripped form starts with the close token and does
not itself start with the open token plus the watched language tag
terminates the block — regardless of what else follows the token — and
the block is emitted with the lines accumulated so far; a subsequent line
starting with the open-plus-language token instead restarts the block
(see C9). -/
theorem claim_C3 (s : ScanState) (i : Nat) (mid : List String) (t : String)
    (rest : List String) (hs : s.inCodeBlock = true)
    (hmid : ∀ l ∈ mid, isFenceLine l = false)
    (ht : isFenceLine t = true) (hto : opensPython t = false) :
    scanFrom i s (mid ++ t :: rest) =
      scanFrom (i + mid.length + 1)
        { inCodeBlock := false, currentBlock := s.currentBlock ++ mid,
          codeBlocks := s.codeBlocks ++
            [(String.intercalate "\n" (s.currentBlock ++ mid),
              (i : Int) - s.currentBlock.length + 1)] } rest := by
  rw [scanFrom_accum mid hmid i s (t :: rest) hs]
  simp only [scanFrom]
  rw [step_close (i := i + mid.length) ht hto rfl]
  have hval : ((i + mid.length : Nat) : Int) - ((s.currentBlock ++ mid).length : Int) + 1 =
      (i : Int) - s.currentBlock.length + 1 := by
    simp only [List.length_append]
    push_cast
    ring
  rw [hval]

/-- C3, counterexample to the claim as stated: a line whose stripped form
starts with the close token need not terminate an open block — the line
consisting of the open token plus the watched language tag starts with
the close token, yet it leaves the scanner inside a block. -/
theorem claim_C3_cex :
    ¬ (∀ (i : Nat) (l : String) (s : ScanState), s.inCodeBlock = true →
        isFenceLine l = true → (step i l s).inCodeBlock = false) := by
  intro h
  have hc := h 2 "```python"
    { inCodeBlock := true, currentBlock := [], codeBlocks := [] } rfl (by decide)
  exact absurd hc (by decide)

theorem claim_C3_witness :
    isFenceLine "``` end" = true ∧
    scanFrom 1 { inCodeBlock := true, currentBlock := [], codeBlocks := [] } ["a", "``` end"] =
      scanFrom 3 { inCodeBlock := false, currentBlock := ["a"], codeBlocks := [("a", 2)] } [] := by
  refine ⟨by decide, ?_⟩
  exact claim_C3 { inCodeBlock := true, currentBlock := [], codeBlocks := [] } 1 ["a"] "``` end"
    [] rfl (by decide) (by decide) (by decide)

/-- C4: a well-formed fenced block tagged with a language other than the
watched one, encountered outside any block, contributes no entry: the
scanner state is untouched, so none of its lines is accumulated or
extracted, and the scan continues past it. -/
theorem claim_C4 (s : ScanState) (i : Nat) (opn : String) (content : List String)
    (cls : String) (rest : List String)
    (hs : s.inCodeBlock = false)
    (hfo : isFenceLine opn = true) (ho : opensPython opn = false)
    (hc : ∀ l ∈ content, isFenceLine l = false)
    (hcl1 : isFenceLine cls = true) (hcl2 : opensPython cls = false) :
    scanFrom i s (opn :: (content ++ cls :: rest)) =
      scanFrom (i + content.length + 2) s rest := by
  have hall : ∀ l ∈ opn :: (content ++ [cls]), opensPython l = false := by
    intro l hl
    simp only [List.mem_cons, List.mem_append, List.mem_singleton, List.not_mem_nil,
      or_false] at hl
    rcases hl with h | h | h
    · subst h; exact ho
    · exact not_fence_not_open (hc l h)
    · subst h; exact hcl2
  have hres := scanFrom_skip (opn :: (content ++ [cls])) hall i s rest hs
  have hlist : (opn :: (content ++ [cls])) ++ rest = opn :: (content ++ cls :: rest) := by simp
  have hlen : i + (opn :: (content ++ [cls])).length = i + content.length + 2 := by
    simp
    omega
  rw [hlist, hlen] at hres
  exact hres

theorem claim_C4_witness :
    opensPython "```js" = false ∧ isFenceLine "```js" = true ∧
    scanFrom 0 { inCodeBlock := false, currentBlock := [], codeBlocks := [] }
        ["```js", "var x = 1", "```"] =
      scanFrom 3 { inCodeBlock := false, currentBlock := [], codeBlocks := [] } [] := by
  refine ⟨by decide, by decide, ?_⟩
  exact claim_C4 { inCodeBlock := false, currentBlock := [], codeBlocks := [] } 0 "```js"
    ["var x = 1"] "```" [] rfl (by decide) (by decide) (by decide) (by decide) (by decide)

/-- C5: for a well-formed watched-language block (open marker, content
lines, close marker), the extracted text is exactly the content lines
joined by newline separators; the marker lines are excluded. -/
theorem claim_C5 (s : ScanState) (i : Nat) (opn : String) (content : List String) (cls : String)
    (ho : opensPython opn = true) (hc : ∀ l ∈ content, isFenceLine l = false)
    (hcl1 : isFenceLine cls = true) (hcl2 : opensPython cls = false) :
    List.map Prod.fst ((scanFrom i s (opn :: (content ++ [cls]))).codeBlocks) =
      List.map Prod.fst s.codeBlocks ++ [String.intercalate "\n" content] := by
  rw [scanFrom_block opn content cls ho hc hcl1 hcl2 i s []]
  simp [scanFrom]

theorem claim_C5_witness :
    opensPython "```python" = true ∧
    List.map Prod.fst ((scanFrom 0 { inCodeBlock := false, currentBlock := [], codeBlocks := [] }
        ["```python", "import autogen_core", "```"]).codeBlocks) =
      ["import autogen_core"] := by
  refine ⟨by decide, ?_⟩
  exact claim_C5 { inCodeBlock := false, currentBlock := [], codeBlocks := [] } 0 "```python"
    ["import autogen_core"] "```" (by decide) (by decide) (by decide) (by decide)

/-- C6: for a well-formed watched-language block whose open marker sits
at 0-based line index `i`, the recorded start line is `i + 2` — the
1-based line number of the first content line (the line right after the
open marker), computed at the close marker as the close index minus the
accumulated line count plus one. -/
theorem claim_C6 (s : ScanState) (i : Nat) (opn : String) (content : List String) (cls : String)
    (ho : opensPython opn = true) (hc : ∀ l ∈ content, isFenceLine l = false)
    (hcl1 : isFenceLine cls = true) (hcl2 : opensPython cls = false) :
    List.map Prod.snd ((scanFrom i s (opn :: (content ++ [cls]))).codeBlocks) =
      List.map Prod.snd s.codeBlocks ++ [(i : Int) + 2] := by
  rw [scanFrom_block opn content cls ho hc hcl1 hcl2 i s []]
  simp [scanFrom]

theorem claim_C6_witness :
    opensPython "```python" = true ∧
    List.map Prod.snd ((scanFrom 0 { inCodeBlock := false, currentBlock := [], codeBlocks := [] }
        ["```python", "import autogen_core", "```"]).codeBlocks) = [2] := by
  refine ⟨by decide, ?_⟩
  exact claim_C6 { inCodeBlock := false, currentBlock := [], codeBlocks := [] } 0 "```python"
    ["import autogen_core"] "```" (by decide) (by decide) (by decide) (by decide)

/-- C7: a block whose text contains none of the watched module names is
never fed to the external checker and is treated as passing: the per-file
loop — its invocation trace and its resulting error flag alike — behaves
exactly as if the block were absent, so the block contributes nothing to
the failure set. -/
theorem claim_C7 (pyright : String → PyrightResult)
    (blocks1 blocks2 : List (String × Int)) (code : String) (n : Int) (had : Bool)
    (hirrel : allModulesAbsent code = true) :
    checkBlocksLoop pyright (blocks1 ++ (code, n) :: blocks2) had =
      checkBlocksLoop pyright (blocks1 ++ blocks2) had := by
  induction blocks1 generalizing had with
  | nil => simp [checkBlocksLoop, hirrel]
  | cons b rest ih =>
    obtain ⟨c2, n2⟩ := b
    by_cases hig : allModulesAbsent c2 = true
    · simp only [List.cons_append, checkBlocksLoop, hig, if_true, List.append_eq]
      exact ih had
    · have higf : allModulesAbsent c2 = false := by simpa using hig
      cases hpr : pyright c2 with
      | notFound =>
        simp only [List.cons_append, checkBlocksLoop, higf, Bool.false_eq_true, if_false, hpr]
      | exit rc =>
        simp only [List.cons_append, checkBlocksLoop, higf, Bool.false_eq_true, if_false, hpr,
          List.append_eq]
        rw [ih (had || (rc != 0))]

theorem claim_C7_witness :
    allModulesAbsent "print(1)" = true ∧
    checkBlocksLoop pyrightAllFail [("print(1)", 1)] false =
      checkBlocksLoop pyrightAllFail [] false :=
  ⟨by decide, claim_C7 pyrightAllFail [] [] "print(1)" 1 false (by decide)⟩

/-- C8: an input ending while a watched-language block is still open —
an open marker followed only by lines none of which is a genuine close
line — yields no entry for the dangling region: the accumulator is
discarded and the extraction result is unchanged. -/
theorem claim_C8 (s : ScanState) (i : Nat) (opn : String) (content : List String)
    (ho : opensPython opn = true)
    (hnc : ∀ l ∈ content, isFenceLine l = true → opensPython l = true) :
    (scanFrom i s (opn :: content)).codeBlocks = s.codeBlocks := by
  simp only [scanFrom, step_open ho]
  exact (scanFrom_no_close content hnc (i + 1) _ rfl).2

theorem claim_C8_witness :
    opensPython "```python" = true ∧
    (scanFrom 0 { inCodeBlock := false, currentBlock := [], codeBlocks := [] }
        ["```python", "x"]).codeBlocks = [] :=
  ⟨by decide, claim_C8 { inCodeBlock := false, currentBlock := [], codeBlocks := [] } 0
    "```python" ["x"] (by decide) (by decide)⟩

/-- C9: while already inside a watched-language block, a line whose
stripped form starts with the open token plus the watched language tag
does not terminate the block: it discards the lines accumulated so far
and begins a fresh block — the rest of the scan proceeds from an empty
accumulator and an unchanged result list, independent of the discarded
lines, so they appear in no extracted entry. -/
theorem claim_C9 (s : ScanState) (i : Nat) (l : String) (rest : List String)
    (hs : s.inCodeBlock = true) (ho : opensPython l = true) :
    scanFrom i s (l :: rest) =
      scanFrom (i + 1)
        { inCodeBlock := true, currentBlock := [], codeBlocks := s.codeBlocks } rest := by
  simp only [scanFrom, step_open ho]

theorem claim_C9_witness :
    ScanState.inCodeBlock { inCodeBlock := true, currentBlock := ["a"], codeBlocks := [] } = true ∧
    scanFrom 5 { inCodeBlock := true, currentBlock := ["a"], codeBlocks := [] } ["```python", "b"] =
      scanFrom 6 { inCodeBlock := true, currentBlock := [], codeBlocks := [] } ["b"] :=
  ⟨rfl, claim_C9 { inCodeBlock := true, currentBlock := ["a"], codeBlocks := [] } 5 "```python"
    ["b"] rfl (by decide)⟩

/-- C10: extraction returns blocks in document order — the recorded start
lines are strictly increasing across the result list. -/
theorem claim_C10 (lines : List String) :
    List.Pairwise (· < ·) ((extract_python_code_blocks lines).map Prod.snd) :=
  scanFrom_pairwise lines 0
    { inCodeBlock := false, currentBlock := [], codeBlocks := [] }
    ⟨List.Pairwise.nil, fun _ _ h => by simp at h, fun _ _ h => by simp at h⟩
